import Mathlib

/-!
Verification of the MPI Jacobi solver (`src/MPI/jacobi_mpi.c`) against its
specification.

The C program runs P identical MPI processes in lock-step; all communication
is through deterministic collectives (`MPI_Scatterv`, `MPI_Gatherv`,
`MPI_Bcast`, `MPI_Allreduce` with `MPI_SUM`), so the whole distributed run is
a deterministic function of the input `(N, A, b)` and the process count `P`.
We embed it as a sequential program over a global state.  Real arithmetic is
modelled over `ℚ` (exact rationals) in place of IEEE doubles; note that in
Lean `q / 0 = 0`.

Naming follows the C source: `base`, `rem`, `local_rows`, `start_row`
(lines 55-59), the coordinator's scatter bookkeeping `sendcounts`, `displsA`,
`sendcounts_b`, `displsb` (lines 75-85), the per-round gather bookkeeping
`rcounts`, `rdispls` (lines 130-136), the scattered block `A_local`/`b_local`
(lines 89-92), the per-rank update `x_localF` (lines 113-120), and the loop
(lines 108-159).
-/

namespace JacobiMPI

/-- Line 6: `#define MAX_ITER 1000`. -/
def MAX_ITER : ℕ := 1000

/-- Line 7: `#define TOLERANCE 1e-5`, as the exact rational 1/100000. -/
def TOLERANCE : ℚ := 1 / 100000

/-- Line 55: `int base = N / size;`. -/
def base (N P : ℕ) : ℕ := N / P

/-- Line 56: `int rem = N % size;`. -/
def rem (N P : ℕ) : ℕ := N % P

/-- Line 57: `int local_rows = base + (rank < rem ? 1 : 0);`. -/
def local_rows (N P r : ℕ) : ℕ := base N P + if r < rem N P then 1 else 0

/-- Line 58: `int start_row = rank * base + (rank < rem ? rank : rem);`
(the second summand is `min rank rem`). -/
def start_row (N P r : ℕ) : ℕ := r * base N P + min r (rem N P)

/-- Line 59: `int end_row = start_row + local_rows;` (exclusive). -/
def end_row (N P r : ℕ) : ℕ := start_row N P r + local_rows N P r

/-- Line 78-79 (coordinator, scatter time): `sendcounts[r] = rows_r * N`,
with `rows_r = base + (r < rem ? 1 : 0)`. -/
def sendcounts (N P r : ℕ) : ℕ := (base N P + if r < rem N P then 1 else 0) * N

/-- Line 80 + 84 (coordinator, scatter time): `displsA[r] = offset_elemsA`,
the running sum of `rows_r * N`. -/
def displsA (N P : ℕ) : ℕ → ℕ
  | 0 => 0
  | r + 1 => displsA N P r + sendcounts N P r

/-- Line 81 (coordinator, scatter time): `sendcounts_b[r] = rows_r`. -/
def sendcounts_b (N P r : ℕ) : ℕ := base N P + if r < rem N P then 1 else 0

/-- Line 82 + 83 (coordinator, scatter time): `displsb[r] = offset_rows`,
the running sum of `rows_r`. -/
def displsb (N P : ℕ) : ℕ → ℕ
  | 0 => 0
  | r + 1 => displsb N P r + sendcounts_b N P r

/-- Line 132-133 (coordinator, recomputed inside every loop round):
`rcounts[r] = rows_r`. -/
def rcounts (N P r : ℕ) : ℕ := base N P + if r < rem N P then 1 else 0

/-- Line 134-135 (coordinator, recomputed inside every loop round):
`rdispls[r] = offset`, the running sum of `rows_r`. -/
def rdispls (N P : ℕ) : ℕ → ℕ
  | 0 => 0
  | r + 1 => rdispls N P r + rcounts N P r

/-- Lines 89-90: the block scattered to rank `r`.  `MPI_Scatterv` places,
for rank `r`, the `sendcounts[r]` doubles starting at flat offset
`displsA[r] = start_row·N` of the row-major `A_full` into `A_local`, so
`A_local[li*N + j] = A_full[(start_row + li)*N + j] = A (start_row+li) j`. -/
def A_local (N P : ℕ) (A : ℕ → ℕ → ℚ) (r li j : ℕ) : ℚ :=
  A (start_row N P r + li) j

/-- Lines 91-92: `b_local[li] = b_full[displsb[r] + li] = b (start_row + li)`. -/
def b_local (N P : ℕ) (b : ℕ → ℚ) (r li : ℕ) : ℚ :=
  b (start_row N P r + li)

/-- Lines 113-120, the Jacobi Iteration Engine of rank `r`: with
`i = start_row + li`, accumulate `sum += A_local[li*N+j] * x_old[j]` over
`j < N` with `j ≠ i`, then `x_local[li] = (b_local[li] - sum) / A_local[li*N+i]`. -/
def x_localF (N P : ℕ) (A : ℕ → ℕ → ℚ) (b : ℕ → ℚ) (xold : ℕ → ℚ) (r li : ℕ) : ℚ :=
  (b_local N P b r li -
      ∑ j ∈ Finset.range N,
        if j ≠ start_row N P r + li then A_local N P A r li j * xold j else 0) /
    A_local N P A r li (start_row N P r + li)

/-- Lines 139-140, `MPI_Gatherv` semantics with count array `rc` and
displacement array `rd`: for each rank `k < howMany`, the segment
`xl k` (of length `rc k`) is written at offset `rd k` of the receive
buffer `x0`. -/
def gathervWith (rc rd : ℕ → ℕ) (xl : ℕ → ℕ → ℚ) (x0 : ℕ → ℚ) : ℕ → ℕ → ℚ
  | 0, i => x0 i
  | k + 1, i =>
    if rd k ≤ i ∧ i < rd k + rc k then xl k (i - rd k)
    else gathervWith rc rd xl x0 k i

/-- Lines 146-150: rank `r`'s local error contribution,
`Σ_{li < local_rows} |x[start_row+li] - x_old[start_row+li]|`. -/
def local_error (N P : ℕ) (x xo : ℕ → ℚ) (r : ℕ) : ℚ :=
  ∑ li ∈ Finset.range (local_rows N P r),
    |x (start_row N P r + li) - xo (start_row N P r + li)|

/-- Line 151: `MPI_Allreduce(..., MPI_SUM, ...)` — the global error is the sum
of every rank's local contribution (every rank `r < P` contributes a term,
including ranks that own zero rows). -/
def global_error_val (N P : ℕ) (x xo : ℕ → ℚ) : ℚ :=
  ∑ r ∈ Finset.range P, local_error N P x xo r

/-- The per-round mutable state of the run: the replicated solution vector
`x`, the previous round's vector `x_old`, the iteration counter and the last
reduced global error (lines 95-105). -/
structure MpiState where
  x : ℕ → ℚ
  x_old : ℕ → ℚ
  iterations : ℕ
  global_error : ℚ

/-- One round of the do-while body, lines 108-153: copy `x` to `x_old`
(line 110), every rank computes its `x_local` from `x_old` (113-120), the
coordinator recomputes `rcounts`/`rdispls` (124-137) and gathers the
segments into `x` (139-140), `x` is broadcast (143, a no-op in the global
lock-step model since `x` is already the single replicated value), the error
is reduced (146-151) and the counter incremented (153).  The coefficients
`A`, `b` are read-only parameters: a round returns only the new
`(x, x_old, iterations, global_error)`. -/
def roundStep (N P : ℕ) (A : ℕ → ℕ → ℚ) (b : ℕ → ℚ) (s : MpiState) : MpiState :=
  let xold := s.x
  let xg := gathervWith (rcounts N P) (rdispls N P) (x_localF N P A b xold) s.x P
  ⟨xg, xold, s.iterations + 1, global_error_val N P xg xold⟩

/-- Line 159: `while (global_error > TOLERANCE && iterations < MAX_ITER)`,
as a fuel-indexed do-while.  Called with `fuel = MAX_ITER` from an
`iterations = 0` state, the `0` case is never reached with the loop still
live: after `k` rounds `iterations = k` and `fuel = MAX_ITER - k`, so when
the fuel hits `1` the guard `iterations < MAX_ITER` already fails. -/
def runLoop (N P : ℕ) (A : ℕ → ℕ → ℚ) (b : ℕ → ℚ) : ℕ → MpiState → MpiState
  | 0, s => s
  | fuel + 1, s =>
    let t := roundStep N P A b s
    if TOLERANCE < t.global_error ∧ t.iterations < MAX_ITER then
      runLoop N P A b fuel t
    else t

/-- Lines 100-105: `x` and `x_old` initialized to all zeros, `iterations = 0`,
`global_error = 0.0`. -/
def initState : MpiState := ⟨fun _ => 0, fun _ => 0, 0, 0⟩

/-- The whole iteration phase, lines 100-159. -/
def jacobiRun (N P : ℕ) (A : ℕ → ℕ → ℚ) (b : ℕ → ℚ) : MpiState :=
  runLoop N P A b MAX_ITER initState

/-- The observable outcome of the program, lines 47-52 and 159-190: after
broadcasting `N`, if `N ≤ 0` the program prints an error and returns exit
status 1 before any partitioning or iteration (lines 48-52); otherwise it
runs the Jacobi loop and returns exit status 0 (line 189) whatever the
stopping reason.  There is no other exit path in the normal control flow
(`die`/`MPI_Abort` covers only I/O and allocation failure, out of scope). -/
def mpiMain (N : ℤ) (P : ℕ) (A : ℕ → ℕ → ℚ) (b : ℕ → ℚ) : ℤ × Option MpiState :=
  if N ≤ 0 then (1, none) else (0, some (jacobiRun N.toNat P A b))

/-- Refactored round for the refinement claim: identical to `roundStep`
except that the gather count/displacement arrays are taken as parameters
instead of being recomputed from `N`, `P` inside the round. -/
def roundStepPre (N P : ℕ) (rc rd : ℕ → ℕ) (A : ℕ → ℕ → ℚ) (b : ℕ → ℚ)
    (s : MpiState) : MpiState :=
  let xold := s.x
  let xg := gathervWith rc rd (x_localF N P A b xold) s.x P
  ⟨xg, xold, s.iterations + 1, global_error_val N P xg xold⟩

/-- Loop of the refactored program, threading the precomputed arrays. -/
def runLoopPre (N P : ℕ) (rc rd : ℕ → ℕ) (A : ℕ → ℕ → ℚ) (b : ℕ → ℚ) :
    ℕ → MpiState → MpiState
  | 0, s => s
  | fuel + 1, s =>
    let t := roundStepPre N P rc rd A b s
    if TOLERANCE < t.global_error ∧ t.iterations < MAX_ITER then
      runLoopPre N P rc rd A b fuel t
    else t

/-- The refactored program: compute the gather bookkeeping once, from the
scatter-time arrays `sendcounts_b`/`displsb` of lines 75-85, and reuse it in
every round. -/
def jacobiRunPre (N P : ℕ) (A : ℕ → ℕ → ℚ) (b : ℕ → ℚ) : MpiState :=
  runLoopPre N P (sendcounts_b N P) (displsb N P) A b MAX_ITER initState

/-! ### Lemmas about the row partition (lines 54-59 and 75-85) -/

lemma start_row_zero (N P : ℕ) : start_row N P 0 = 0 := by
  simp [start_row]

lemma start_row_succ (N P r : ℕ) :
    start_row N P (r + 1) = start_row N P r + local_rows N P r := by
  unfold start_row local_rows
  rcases lt_or_ge r (rem N P) with h | h
  · rw [min_eq_left h.le, min_eq_left (by omega : r + 1 ≤ rem N P), if_pos h]
    ring
  · rw [min_eq_right h, min_eq_right (by omega : rem N P ≤ r + 1), if_neg (by omega)]
    ring

lemma start_row_mono (N P : ℕ) {a c : ℕ} (h : a ≤ c) :
    start_row N P a ≤ start_row N P c := by
  unfold start_row
  exact Nat.add_le_add (Nat.mul_le_mul_right _ h) (min_le_min h le_rfl)

lemma start_row_total (N P : ℕ) (hP : 0 < P) : start_row N P P = N := by
  unfold start_row base rem
  rw [min_eq_right (Nat.mod_lt N hP).le]
  exact Nat.div_add_mod N P

lemma sum_local_rows (N P k : ℕ) :
    ∑ r ∈ Finset.range k, local_rows N P r = start_row N P k := by
  induction k with
  | zero => simp [start_row_zero]
  | succ k ih => rw [Finset.sum_range_succ, ih, start_row_succ]

lemma row_in_bounds (N P : ℕ) (hP : 0 < P) {r li : ℕ} (hr : r < P)
    (hli : li < local_rows N P r) : start_row N P r + li < N := by
  have h1 : start_row N P r + li < start_row N P (r + 1) := by
    rw [start_row_succ]; omega
  have h2 : start_row N P (r + 1) ≤ start_row N P P := start_row_mono N P (by omega)
  rw [start_row_total N P hP] at h2
  omega

lemma displsb_eq_start (N P r : ℕ) : displsb N P r = start_row N P r := by
  induction r with
  | zero => simp [displsb, start_row_zero]
  | succ r ih =>
    show displsb N P r + sendcounts_b N P r = _
    rw [ih, start_row_succ]; rfl

lemma rdispls_eq_start (N P r : ℕ) : rdispls N P r = start_row N P r := by
  induction r with
  | zero => simp [rdispls, start_row_zero]
  | succ r ih =>
    show rdispls N P r + rcounts N P r = _
    rw [ih, start_row_succ]; rfl

lemma displsA_eq_start (N P r : ℕ) : displsA N P r = start_row N P r * N := by
  induction r with
  | zero => simp [displsA, start_row_zero]
  | succ r ih =>
    show displsA N P r + sendcounts N P r = _
    rw [ih, start_row_succ, Nat.add_mul]; rfl

lemma local_rows_le_succ (N P r s : ℕ) :
    local_rows N P r ≤ local_rows N P s + 1 := by
  unfold local_rows
  split <;> split <;> omega

lemma local_rows_anti (N P : ℕ) {r s : ℕ} (hrs : r ≤ s) :
    local_rows N P s ≤ local_rows N P r := by
  unfold local_rows
  by_cases hs : s < rem N P
  · rw [if_pos hs, if_pos (by omega : r < rem N P)]
  · rw [if_neg hs]; split <;> omega

lemma owner_exists_unique (N P : ℕ) (hP : 0 < P) {i : ℕ} (hi : i < N) :
    ∃! r, r < P ∧ start_row N P r ≤ i ∧ i < end_row N P r := by
  set g := Nat.findGreatest (fun r => start_row N P r ≤ i) (P - 1) with hg_def
  have h0 : start_row N P 0 ≤ i := by rw [start_row_zero]; omega
  have hgP : g < P := by
    have := Nat.findGreatest_le (P := fun r => start_row N P r ≤ i) (P - 1)
    omega
  have hg_le : start_row N P g ≤ i := by
    have h := Nat.findGreatest_spec (P := fun r => start_row N P r ≤ i)
      (Nat.zero_le (P - 1)) h0
    rw [← hg_def] at h
    exact h
  have hg_lt : i < start_row N P (g + 1) := by
    by_cases hgl : g + 1 ≤ P - 1
    · have h := Nat.findGreatest_is_greatest
        (P := fun r => start_row N P r ≤ i) (Nat.lt_succ_self g) hgl
      have h2 : ¬ start_row N P (g + 1) ≤ i := by simpa using h
      omega
    · have hgp : P ≤ g + 1 := by omega
      have := start_row_mono N P hgp
      rw [start_row_total N P hP] at this
      omega
  refine ⟨g, ⟨hgP, hg_le, ?_⟩, ?_⟩
  · rw [end_row, ← start_row_succ]; exact hg_lt
  · rintro s ⟨hsP, hs_le, hs_lt⟩
    rw [end_row, ← start_row_succ] at hs_lt
    by_contra hne
    rcases Nat.lt_or_ge s g with h | h
    · have : start_row N P (s + 1) ≤ start_row N P g := start_row_mono N P (by omega)
      omega
    · have hgs : g + 1 ≤ s := by omega
      have : start_row N P (g + 1) ≤ start_row N P s := start_row_mono N P hgs
      omega

/-! ### Lemmas about the gather (lines 124-140) and the error reduction
(lines 145-151) -/

lemma gatherv_at (N P : ℕ) (xl : ℕ → ℕ → ℚ) (x0 : ℕ → ℚ) {r li k : ℕ}
    (hrk : r < k) (hli : li < local_rows N P r) :
    gathervWith (rcounts N P) (rdispls N P) xl x0 k (start_row N P r + li)
      = xl r li := by
  induction k with
  | zero => omega
  | succ k ih =>
    show (if rdispls N P k ≤ start_row N P r + li ∧
            start_row N P r + li < rdispls N P k + rcounts N P k then
          xl k (start_row N P r + li - rdispls N P k)
        else gathervWith (rcounts N P) (rdispls N P) xl x0 k
          (start_row N P r + li)) = xl r li
    by_cases hk : r = k
    · subst hk
      have hc : rdispls N P r ≤ start_row N P r + li ∧
          start_row N P r + li < rdispls N P r + rcounts N P r := by
        rw [rdispls_eq_start]
        have : rcounts N P r = local_rows N P r := rfl
        omega
      rw [if_pos hc, rdispls_eq_start, Nat.add_sub_cancel_left]
    · have hrk2 : r < k := by omega
      have hlt : start_row N P r + li < rdispls N P k := by
        have h1 : start_row N P r + li < start_row N P (r + 1) := by
          rw [start_row_succ]; omega
        have h2 : start_row N P (r + 1) ≤ start_row N P k :=
          start_row_mono N P (by omega)
        rw [rdispls_eq_start]
        omega
      rw [if_neg (by omega)]
      exact ih hrk2

lemma gatherv_skip (rc rd : ℕ → ℕ) (xl : ℕ → ℕ → ℚ) (x0 : ℕ → ℚ) {k : ℕ}
    (hk : rc k = 0) (i : ℕ) :
    gathervWith rc rd xl x0 (k + 1) i = gathervWith rc rd xl x0 k i := by
  show (if rd k ≤ i ∧ i < rd k + rc k then xl k (i - rd k)
        else gathervWith rc rd xl x0 k i) = _
  rw [if_neg (by omega)]

lemma sum_range_shift (f : ℕ → ℚ) (a c : ℕ) :
    ∑ i ∈ Finset.range (a + c), f i
      = (∑ i ∈ Finset.range a, f i) + ∑ li ∈ Finset.range c, f (a + li) := by
  induction c with
  | zero => simp
  | succ c ih =>
    rw [← Nat.add_assoc, Finset.sum_range_succ, ih, Finset.sum_range_succ]
    ring

lemma sum_blocks (N P : ℕ) (f : ℕ → ℚ) (k : ℕ) :
    ∑ r ∈ Finset.range k,
        ∑ li ∈ Finset.range (local_rows N P r), f (start_row N P r + li)
      = ∑ i ∈ Finset.range (start_row N P k), f i := by
  induction k with
  | zero => simp [start_row_zero]
  | succ k ih =>
    rw [Finset.sum_range_succ, ih, start_row_succ, sum_range_shift]

lemma global_error_eq_rows (N P : ℕ) (hP : 0 < P) (x xo : ℕ → ℚ) :
    global_error_val N P x xo = ∑ i ∈ Finset.range N, |x i - xo i| := by
  unfold global_error_val local_error
  rw [sum_blocks N P (fun i => |x i - xo i|) P, start_row_total N P hP]

lemma local_error_of_zero_rows (N P : ℕ) (x xo : ℕ → ℚ) {r : ℕ}
    (h : local_rows N P r = 0) : local_error N P x xo r = 0 := by
  unfold local_error
  rw [h]
  simp

/-! ### Lemmas about one round (lines 108-153) -/

lemma roundStep_x_old (N P : ℕ) (A : ℕ → ℕ → ℚ) (b : ℕ → ℚ) (s : MpiState) :
    (roundStep N P A b s).x_old = s.x := rfl

lemma roundStep_iterations (N P : ℕ) (A : ℕ → ℕ → ℚ) (b : ℕ → ℚ) (s : MpiState) :
    (roundStep N P A b s).iterations = s.iterations + 1 := rfl

lemma roundStep_x_at (N P : ℕ) (A : ℕ → ℕ → ℚ) (b : ℕ → ℚ) (s : MpiState)
    {r li : ℕ} (hr : r < P) (hli : li < local_rows N P r) :
    (roundStep N P A b s).x (start_row N P r + li)
      = (b (start_row N P r + li) -
          ∑ j ∈ Finset.range N,
            if j ≠ start_row N P r + li
            then A (start_row N P r + li) j * s.x j else 0) /
        A (start_row N P r + li) (start_row N P r + li) := by
  show gathervWith (rcounts N P) (rdispls N P) (x_localF N P A b s.x) s.x P
      (start_row N P r + li) = _
  rw [gatherv_at N P _ _ hr hli]
  rfl

lemma roundStep_error (N P : ℕ) (hP : 0 < P) (A : ℕ → ℕ → ℚ) (b : ℕ → ℚ)
    (s : MpiState) :
    (roundStep N P A b s).global_error
      = ∑ i ∈ Finset.range N, |(roundStep N P A b s).x i - s.x i| := by
  show global_error_val N P
      (gathervWith (rcounts N P) (rdispls N P) (x_localF N P A b s.x) s.x P)
      s.x = _
  rw [global_error_eq_rows N P hP]
  rfl

/-! ### Lemmas about the do-while loop (lines 108-159) -/

lemma runLoop_succ_stop (N P : ℕ) (A : ℕ → ℕ → ℚ) (b : ℕ → ℚ) (fuel : ℕ)
    (s : MpiState)
    (h : ¬(TOLERANCE < (roundStep N P A b s).global_error ∧
        (roundStep N P A b s).iterations < MAX_ITER)) :
    runLoop N P A b (fuel + 1) s = roundStep N P A b s := by
  show (if TOLERANCE < (roundStep N P A b s).global_error ∧
        (roundStep N P A b s).iterations < MAX_ITER then
      runLoop N P A b fuel (roundStep N P A b s)
    else roundStep N P A b s) = _
  rw [if_neg h]

lemma runLoop_succ_go (N P : ℕ) (A : ℕ → ℕ → ℚ) (b : ℕ → ℚ) (fuel : ℕ)
    (s : MpiState)
    (h : TOLERANCE < (roundStep N P A b s).global_error ∧
        (roundStep N P A b s).iterations < MAX_ITER) :
    runLoop N P A b (fuel + 1) s = runLoop N P A b fuel (roundStep N P A b s) := by
  show (if TOLERANCE < (roundStep N P A b s).global_error ∧
        (roundStep N P A b s).iterations < MAX_ITER then
      runLoop N P A b fuel (roundStep N P A b s)
    else roundStep N P A b s) = _
  rw [if_pos h]

lemma runLoop_iter_mono (N P : ℕ) (A : ℕ → ℕ → ℚ) (b : ℕ → ℚ) (fuel : ℕ)
    (s : MpiState) :
    s.iterations ≤ (runLoop N P A b fuel s).iterations := by
  induction fuel generalizing s with
  | zero => exact le_rfl
  | succ fuel ih =>
    by_cases h : TOLERANCE < (roundStep N P A b s).global_error ∧
        (roundStep N P A b s).iterations < MAX_ITER
    · rw [runLoop_succ_go N P A b fuel s h]
      have := ih (roundStep N P A b s)
      rw [roundStep_iterations] at this
      omega
    · rw [runLoop_succ_stop N P A b fuel s h, roundStep_iterations]
      omega

lemma runLoop_iter_le (N P : ℕ) (A : ℕ → ℕ → ℚ) (b : ℕ → ℚ) (fuel : ℕ)
    (s : MpiState) :
    (runLoop N P A b fuel s).iterations ≤ s.iterations + fuel := by
  induction fuel generalizing s with
  | zero => exact le_rfl
  | succ fuel ih =>
    by_cases h : TOLERANCE < (roundStep N P A b s).global_error ∧
        (roundStep N P A b s).iterations < MAX_ITER
    · rw [runLoop_succ_go N P A b fuel s h]
      have := ih (roundStep N P A b s)
      rw [roundStep_iterations] at this
      omega
    · rw [runLoop_succ_stop N P A b fuel s h, roundStep_iterations]
      omega

lemma runLoop_iter_ge_one (N P : ℕ) (A : ℕ → ℕ → ℚ) (b : ℕ → ℚ) (fuel : ℕ)
    (s : MpiState) :
    s.iterations + 1 ≤ (runLoop N P A b (fuel + 1) s).iterations := by
  by_cases h : TOLERANCE < (roundStep N P A b s).global_error ∧
      (roundStep N P A b s).iterations < MAX_ITER
  · rw [runLoop_succ_go N P A b fuel s h]
    have := runLoop_iter_mono N P A b fuel (roundStep N P A b s)
    rw [roundStep_iterations] at this
    omega
  · rw [runLoop_succ_stop N P A b fuel s h, roundStep_iterations]

lemma runLoop_final (N P : ℕ) (A : ℕ → ℕ → ℚ) (b : ℕ → ℚ) (fuel : ℕ)
    (s : MpiState) (h : s.iterations + fuel = MAX_ITER) :
    (runLoop N P A b fuel s).global_error ≤ TOLERANCE ∨
      (runLoop N P A b fuel s).iterations = MAX_ITER := by
  induction fuel generalizing s with
  | zero => right; simpa using h
  | succ fuel ih =>
    by_cases hc : TOLERANCE < (roundStep N P A b s).global_error ∧
        (roundStep N P A b s).iterations < MAX_ITER
    · rw [runLoop_succ_go N P A b fuel s hc]
      exact ih (roundStep N P A b s) (by rw [roundStep_iterations]; omega)
    · rw [runLoop_succ_stop N P A b fuel s hc]
      rw [not_and_or] at hc
      rcases hc with hc | hc
      · left; exact le_of_not_lt hc
      · right
        have := roundStep_iterations N P A b s
        omega

/-! ### Lemmas about the whole run -/

lemma jacobiRun_iter_le (N P : ℕ) (A : ℕ → ℕ → ℚ) (b : ℕ → ℚ) :
    (jacobiRun N P A b).iterations ≤ MAX_ITER := by
  have := runLoop_iter_le N P A b MAX_ITER initState
  simpa [initState] using this

lemma jacobiRun_iter_ge_one (N P : ℕ) (A : ℕ → ℕ → ℚ) (b : ℕ → ℚ) :
    1 ≤ (jacobiRun N P A b).iterations := by
  have := runLoop_iter_ge_one N P A b 999 initState
  simpa [jacobiRun, initState, show (999 : ℕ) + 1 = MAX_ITER from rfl] using this

lemma jacobiRun_stopping (N P : ℕ) (A : ℕ → ℕ → ℚ) (b : ℕ → ℚ) :
    (jacobiRun N P A b).global_error ≤ TOLERANCE ∨
      (jacobiRun N P A b).iterations = MAX_ITER :=
  runLoop_final N P A b MAX_ITER initState rfl

/-! ### The 1×1 system -/

lemma local_rows_one {P : ℕ} (hP : 0 < P) : local_rows 1 P 0 = 1 := by
  unfold local_rows base rem
  rcases eq_or_lt_of_le hP with h | h
  · rw [← h]
    decide
  · rw [Nat.div_eq_of_lt h, Nat.mod_eq_of_lt h]
    decide

lemma roundStep_one (P : ℕ) (hP : 0 < P) (A : ℕ → ℕ → ℚ) (b : ℕ → ℚ)
    (s : MpiState) :
    (roundStep 1 P A b s).x 0 = b 0 / A 0 0 ∧
    (roundStep 1 P A b s).global_error = |b 0 / A 0 0 - s.x 0| := by
  have h0 : (0 : ℕ) < local_rows 1 P 0 := by rw [local_rows_one hP]; omega
  have hx := roundStep_x_at 1 P A b s hP h0
  simp only [start_row_zero, Nat.add_zero, Finset.sum_range_one, ne_eq,
    not_true_eq_false, if_false, sub_zero] at hx
  have he := roundStep_error 1 P hP A b s
  rw [Finset.sum_range_one, hx] at he
  exact ⟨hx, he⟩

lemma jacobiRun_one (P : ℕ) (hP : 0 < P) (A : ℕ → ℕ → ℚ) (b : ℕ → ℚ) :
    (jacobiRun 1 P A b).x 0 = b 0 / A 0 0 ∧
    (jacobiRun 1 P A b).iterations
      = if |b 0 / A 0 0| ≤ TOLERANCE then 1 else 2 := by
  obtain ⟨hx1, he1⟩ := roundStep_one P hP A b initState
  have he1q : (roundStep 1 P A b initState).global_error = |b 0 / A 0 0| := by
    rw [he1]; simp [initState]
  have hit1 : (roundStep 1 P A b initState).iterations = 1 :=
    roundStep_iterations 1 P A b initState
  show (runLoop 1 P A b MAX_ITER initState).x 0 = _ ∧
    (runLoop 1 P A b MAX_ITER initState).iterations = _
  by_cases hq : |b 0 / A 0 0| ≤ TOLERANCE
  · have hstop := runLoop_succ_stop 1 P A b 999 initState (by
      rw [not_and_or]
      left
      rw [he1q]
      exact not_lt.mpr hq)
    rw [show MAX_ITER = 999 + 1 from rfl, hstop, if_pos hq]
    exact ⟨hx1, hit1⟩
  · have hgo := runLoop_succ_go 1 P A b 999 initState (by
      constructor
      · rw [he1q]; exact not_le.mp hq
      · rw [hit1]; norm_num [MAX_ITER])
    rw [show MAX_ITER = 999 + 1 from rfl, hgo]
    obtain ⟨hx2, he2⟩ := roundStep_one P hP A b (roundStep 1 P A b initState)
    have he2z : (roundStep 1 P A b (roundStep 1 P A b initState)).global_error
        = 0 := by
      rw [he2, hx1]
      simp
    have hstop2 := runLoop_succ_stop 1 P A b 998 (roundStep 1 P A b initState) (by
      rw [not_and_or]
      left
      rw [he2z]
      norm_num [TOLERANCE])
    rw [show (999 : ℕ) = 998 + 1 from rfl, hstop2, if_neg hq]
    refine ⟨hx2, ?_⟩
    rw [roundStep_iterations, hit1]

/-! ### Workers owning zero rows (P > N) -/

lemma local_rows_zero_of (N P r : ℕ) (hNP : N < P) (hr : N ≤ r) :
    local_rows N P r = 0 := by
  unfold local_rows base rem
  rw [Nat.div_eq_of_lt hNP, Nat.mod_eq_of_lt hNP, if_neg (by omega)]

/-! ### Equality with the precomputed-bookkeeping refactoring -/

lemma rcounts_eq_sendcounts_b (N P : ℕ) : rcounts N P = sendcounts_b N P := rfl

lemma rdispls_eq_displsb (N P : ℕ) : rdispls N P = displsb N P := by
  funext r
  rw [rdispls_eq_start, displsb_eq_start]

lemma roundStepPre_eq (N P : ℕ) (A : ℕ → ℕ → ℚ) (b : ℕ → ℚ) (s : MpiState) :
    roundStepPre N P (sendcounts_b N P) (displsb N P) A b s
      = roundStep N P A b s := by
  unfold roundStepPre roundStep
  rw [← rcounts_eq_sendcounts_b, ← rdispls_eq_displsb]

lemma runLoopPre_eq (N P : ℕ) (A : ℕ → ℕ → ℚ) (b : ℕ → ℚ) (fuel : ℕ)
    (s : MpiState) :
    runLoopPre N P (sendcounts_b N P) (displsb N P) A b fuel s
      = runLoop N P A b fuel s := by
  induction fuel generalizing s with
  | zero => rfl
  | succ fuel ih =>
    show (if TOLERANCE <
          (roundStepPre N P (sendcounts_b N P) (displsb N P) A b s).global_error ∧
          (roundStepPre N P (sendcounts_b N P) (displsb N P) A b s).iterations
            < MAX_ITER then
        runLoopPre N P (sendcounts_b N P) (displsb N P) A b fuel
          (roundStepPre N P (sendcounts_b N P) (displsb N P) A b s)
      else roundStepPre N P (sendcounts_b N P) (displsb N P) A b s)
      = runLoop N P A b (fuel + 1) s
    rw [roundStepPre_eq, ih]
    rfl

lemma jacobiRunPre_eq (N P : ℕ) (A : ℕ → ℕ → ℚ) (b : ℕ → ℚ) :
    jacobiRunPre N P A b = jacobiRun N P A b :=
  runLoopPre_eq N P A b MAX_ITER initState

/-! ### The claims -/

/-- C1: for every owned row `i = start_row + li` of every rank `r < P`, the
Jacobi Iteration Engine (lines 113-120) produces
`(b[i] − Σ_{j<N, j≠i} A[i][j]·x_old[j]) / A[i][i]`, where the diagonal index
`i` is absent from the summation index set (`(range N).erase i`), and the
round's `x_old` is exactly the vector that was read — the engine writes only
`x_local`; `A`, `b` and `x_old` are read-only inputs of the round. -/
theorem c1_engine_formula (N P : ℕ) (A : ℕ → ℕ → ℚ) (b : ℕ → ℚ) (s : MpiState)
    (r li : ℕ) (hr : r < P) (hli : li < local_rows N P r) :
    ((roundStep N P A b s).x (start_row N P r + li)
        = (b (start_row N P r + li) -
            ∑ j ∈ (Finset.range N).erase (start_row N P r + li),
              A (start_row N P r + li) j * s.x j) /
          A (start_row N P r + li) (start_row N P r + li))
    ∧ (roundStep N P A b s).x_old = s.x := by
  refine ⟨?_, rfl⟩
  rw [roundStep_x_at N P A b s hr hli, ← Finset.filter_ne', Finset.sum_filter]

/-- C1 witness at `N = 3`, `P = 2`, rank 1, local row 0. -/
theorem c1_witness :
    1 < 2 ∧ 0 < local_rows 3 2 1 ∧
    (((roundStep 3 2 (fun _ _ => 1) (fun _ => 1) initState).x (start_row 3 2 1 + 0)
        = ((fun _ => (1 : ℚ)) (start_row 3 2 1 + 0) -
            ∑ j ∈ (Finset.range 3).erase (start_row 3 2 1 + 0),
              (fun _ _ => (1 : ℚ)) (start_row 3 2 1 + 0) j * initState.x j) /
          (fun _ _ => (1 : ℚ)) (start_row 3 2 1 + 0) (start_row 3 2 1 + 0))
      ∧ (roundStep 3 2 (fun _ _ => 1) (fun _ => 1) initState).x_old
          = initState.x) :=
  ⟨by decide, by decide,
    c1_engine_formula 3 2 (fun _ _ => 1) (fun _ => 1) initState 1 0
      (by decide) (by decide)⟩

/-- C2: the row partition of lines 54-59 is contiguous, covers `[0,N)` with
every row owned by exactly one rank, the sizes sum to `N` and differ pairwise
by at most 1 with the extra rows on the lowest ranks, and each rank's
independently computed range agrees with the coordinator's scatter
bookkeeping of lines 75-85 (`sendcounts_b[r] = local_rows`,
`displsb[r] = start_row`, `sendcounts[r] = local_rows·N`,
`displsA[r] = start_row·N`). -/
theorem c2_partition (N P : ℕ) (_hN : 0 < N) (hP : 0 < P) :
    (∀ r, r < P → start_row N P (r + 1) = start_row N P r + local_rows N P r)
    ∧ (∑ r ∈ Finset.range P, local_rows N P r) = N
    ∧ (∀ i, i < N → ∃! r, r < P ∧ start_row N P r ≤ i ∧ i < end_row N P r)
    ∧ (∀ r s, r < P → s < P → local_rows N P r ≤ local_rows N P s + 1)
    ∧ (∀ r s, r ≤ s → s < P → local_rows N P s ≤ local_rows N P r)
    ∧ (∀ r, r < P → sendcounts_b N P r = local_rows N P r
        ∧ displsb N P r = start_row N P r
        ∧ sendcounts N P r = local_rows N P r * N
        ∧ displsA N P r = start_row N P r * N) := by
  refine ⟨fun r _ => start_row_succ N P r, ?_, fun i hi => owner_exists_unique N P hP hi,
    fun r s _ _ => local_rows_le_succ N P r s, fun r s hrs _ => local_rows_anti N P hrs,
    fun r _ => ⟨rfl, displsb_eq_start N P r, rfl, displsA_eq_start N P r⟩⟩
  rw [sum_local_rows, start_row_total N P hP]

/-- C2 witness at `N = 5`, `P = 3` (non-dividing case: sizes 2,2,1). -/
theorem c2_witness :
    0 < 5 ∧ 0 < 3 ∧ (∑ r ∈ Finset.range 3, local_rows 5 3 r) = 5 :=
  ⟨by decide, by decide, (c2_partition 5 3 (by decide) (by decide)).2.1⟩

/-- C3: the code has no near-zero-diagonal check at all.  On the 1×1 input
with `A[0][0] = 0`, `b[0] = 1`, the embedded program performs its first
iteration (dividing by the zero diagonal) and terminates normally with exit
status 0 and iteration count 1 — there is no ConfigurationError path and no
non-zero exit, contradicting the claim.  (Over IEEE doubles the division
yields ±inf/NaN instead of Lean's `q/0 = 0`, but the control flow is the
same: no check, iterations run, exit status 0.) -/
theorem c3_no_diagonal_check :
    (mpiMain 1 1 (fun _ _ => 0) (fun _ => 1)).1 = 0 ∧
    Option.map MpiState.iterations (mpiMain 1 1 (fun _ _ => 0) (fun _ => 1)).2
      = some 1 := by
  have hrun := jacobiRun_one 1 one_pos (fun _ _ => 0) (fun _ => 1)
  have hit : (jacobiRun 1 1 (fun _ _ => 0) (fun _ => 1)).iterations = 1 := by
    rw [hrun.2]
    rw [if_pos (by norm_num [TOLERANCE])]
  have hm : mpiMain 1 1 (fun _ _ => 0) (fun _ => 1)
      = (0, some (jacobiRun 1 1 (fun _ _ => 0) (fun _ => 1))) := by
    unfold mpiMain
    rw [if_neg (by norm_num)]
    rfl
  rw [hm]
  exact ⟨rfl, by rw [Option.map_some', hit]⟩

/-- C4 counterexample: on the 1×1 system `A = [[1]]`, `b = [1]` (diagonal
non-zero, so the claim applies) the reported iteration count is 2, not 1:
the first round already computes `x[0] = 1`, but its error `|1 − 0| = 1`
exceeds the tolerance, so the do-while loop runs a second (unchanged) round
before stopping. -/
theorem c4_counterexample :
    ((fun _ _ => (1 : ℚ)) 0 0 ≠ 0) ∧
    (jacobiRun 1 1 (fun _ _ => 1) (fun _ => 1)).iterations = 2 := by
  refine ⟨by norm_num, ?_⟩
  have hrun := jacobiRun_one 1 one_pos (fun _ _ => 1) (fun _ => 1)
  rw [hrun.2, if_neg (by norm_num [TOLERANCE])]

/-- C4 amended: for every 1×1 system with `A[0][0] ≠ 0` and every worker
count `P ≥ 1`, the solver terminates with `x[0] = b[0]/A[0][0]`; the
reported iteration count is 1 when `|b[0]/A[0][0]|` is already within the
tolerance and 2 otherwise (the extra round re-derives the same `x[0]` and
only serves to observe a zero error). -/
theorem c4_amended (P : ℕ) (A : ℕ → ℕ → ℚ) (b : ℕ → ℚ) (hP : 0 < P)
    (_hA : A 0 0 ≠ 0) :
    (jacobiRun 1 P A b).x 0 = b 0 / A 0 0 ∧
    (jacobiRun 1 P A b).iterations
      = if |b 0 / A 0 0| ≤ TOLERANCE then 1 else 2 :=
  jacobiRun_one P hP A b

/-- C4 witness at `P = 2`, `A = [[1]]`, `b = [1]`. -/
theorem c4_witness :
    0 < 2 ∧ ((fun _ _ => (1 : ℚ)) 0 0 ≠ 0) ∧
    ((jacobiRun 1 2 (fun _ _ => 1) (fun _ => 1)).x 0
        = (fun _ => (1 : ℚ)) 0 / (fun _ _ => (1 : ℚ)) 0 0 ∧
      (jacobiRun 1 2 (fun _ _ => 1) (fun _ => 1)).iterations
        = if |(fun _ => (1 : ℚ)) 0 / (fun _ _ => (1 : ℚ)) 0 0| ≤ TOLERANCE
          then 1 else 2) :=
  ⟨by decide, by norm_num,
    c4_amended 2 (fun _ _ => 1) (fun _ => 1) (by decide) (by norm_num)⟩

/-- C5: each round's reduced global error is the sum of the per-rank
contributions over exactly the owned rows, which equals the sum over all `N`
rows of `|x_new[i] − x_old[i]|`; when a round ends with global error ≤
tolerance the loop halts immediately after that round (the condition is only
evaluated at line 159, after a complete round); and every run ends either
converged (error ≤ tolerance) or at the iteration cap. -/
theorem c5_error_and_convergence (N P : ℕ) (A : ℕ → ℕ → ℚ) (b : ℕ → ℚ)
    (hP : 0 < P) (s : MpiState) (fuel : ℕ) :
    ((roundStep N P A b s).global_error
        = ∑ r ∈ Finset.range P, local_error N P (roundStep N P A b s).x s.x r)
    ∧ ((roundStep N P A b s).global_error
        = ∑ i ∈ Finset.range N, |(roundStep N P A b s).x i - s.x i|)
    ∧ ((roundStep N P A b s).global_error ≤ TOLERANCE →
        runLoop N P A b (fuel + 1) s = roundStep N P A b s)
    ∧ ((jacobiRun N P A b).global_error ≤ TOLERANCE ∨
        (jacobiRun N P A b).iterations = MAX_ITER) := by
  refine ⟨rfl, roundStep_error N P hP A b s, fun h => ?_,
    jacobiRun_stopping N P A b⟩
  apply runLoop_succ_stop
  rw [not_and_or]
  left
  exact not_lt.mpr h

/-- C5 witness at `N = 2`, `P = 2`. -/
theorem c5_witness :
    0 < 2 ∧ ((jacobiRun 2 2 (fun _ _ => 1) (fun _ => 1)).global_error ≤ TOLERANCE
      ∨ (jacobiRun 2 2 (fun _ _ => 1) (fun _ => 1)).iterations = MAX_ITER) :=
  ⟨by decide,
    (c5_error_and_convergence 2 2 (fun _ _ => 1) (fun _ => 1) (by decide)
      initState 0).2.2.2⟩

/-- C6: the loop terminates on every input: each round increments the
counter by exactly 1, the final count never exceeds the cap `MAX_ITER =
1000` and is at least 1, and reaching the cap is a non-error termination —
the program still returns exit status 0 for every positive `N`. -/
theorem c6_termination (N P : ℕ) (A : ℕ → ℕ → ℚ) (b : ℕ → ℚ) (s : MpiState) :
    ((roundStep N P A b s).iterations = s.iterations + 1)
    ∧ (jacobiRun N P A b).iterations ≤ MAX_ITER
    ∧ 1 ≤ (jacobiRun N P A b).iterations
    ∧ (∀ NZ : ℤ, 0 < NZ → (mpiMain NZ P A b).1 = 0) := by
  refine ⟨roundStep_iterations N P A b s, jacobiRun_iter_le N P A b,
    jacobiRun_iter_ge_one N P A b, fun NZ hNZ => ?_⟩
  unfold mpiMain
  rw [if_neg (by omega)]

/-- C6 witness at `N = 1`, `P = 1`. -/
theorem c6_witness :
    (roundStep 1 1 (fun _ _ => 1) (fun _ => 1) initState).iterations
        = initState.iterations + 1
    ∧ 0 < (1 : ℤ) ∧ (mpiMain 1 1 (fun _ _ => 1) (fun _ => 1)).1 = 0 := by
  have h := c6_termination 1 1 (fun _ _ => 1) (fun _ => 1) initState
  exact ⟨h.1, by norm_num, h.2.2.2 1 (by norm_num)⟩

/-- C7: when `P > N`, a rank `r` with `N ≤ r < P` owns zero rows: it
performs no row update (its gather segment is empty, so the gather step for
that rank changes nothing), every index any rank does access stays below
`N`, its local error contribution is exactly 0, and it still participates in
the error reduction — the reduced global error is by construction the sum
over all ranks `r < P`, a range that contains `r`. -/
theorem c7_zero_row_workers (N P r : ℕ) (_hN : 0 < N) (hNP : N < P)
    (hrN : N ≤ r) (hrP : r < P) (x xo x0 : ℕ → ℚ) (xl : ℕ → ℕ → ℚ) :
    local_rows N P r = 0
    ∧ local_error N P x xo r = 0
    ∧ (∀ i, gathervWith (rcounts N P) (rdispls N P) xl x0 (r + 1) i
        = gathervWith (rcounts N P) (rdispls N P) xl x0 r i)
    ∧ (∀ r2 li, r2 < P → li < local_rows N P r2 → start_row N P r2 + li < N)
    ∧ global_error_val N P x xo = ∑ r2 ∈ Finset.range P, local_error N P x xo r2
    ∧ r ∈ Finset.range P := by
  have hz := local_rows_zero_of N P r hNP hrN
  refine ⟨hz, local_error_of_zero_rows N P x xo hz, fun i => ?_,
    fun r2 li h1 h2 => row_in_bounds N P (by omega) h1 h2, rfl,
    Finset.mem_range.mpr hrP⟩
  exact gatherv_skip _ _ _ _ (show rcounts N P r = 0 from hz) i

/-- C7 witness at `N = 2`, `P = 3`, rank 2 (which owns zero rows). -/
theorem c7_witness :
    0 < 2 ∧ 2 < 3 ∧ 2 ≤ 2 ∧ 2 < 3 ∧ local_rows 2 3 2 = 0 :=
  ⟨by decide, by decide, by decide, by decide,
    (c7_zero_row_workers 2 3 2 (by decide) (by decide) (by decide) (by decide)
      (fun _ => 0) (fun _ => 0) (fun _ => 0) (fun _ _ => 0)).1⟩

/-- C8: the exit status is 0 exactly when the loaded `N` is positive — every
normal termination (converged or iteration cap, the only two ways the loop
ends) returns 0, and `N ≤ 0` returns the non-zero status 1 with no run
performed (lines 48-52 and 189). -/
theorem c8_exit_status (NZ : ℤ) (P : ℕ) (A : ℕ → ℕ → ℚ) (b : ℕ → ℚ) :
    ((mpiMain NZ P A b).1 = 0 ↔ 0 < NZ)
    ∧ (mpiMain NZ P A b).2
        = if 0 < NZ then some (jacobiRun NZ.toNat P A b) else none := by
  unfold mpiMain
  by_cases h : NZ ≤ 0
  · rw [if_pos h, if_neg (not_lt.mpr h)]
    exact ⟨⟨fun h0 => absurd h0 (by norm_num), fun h0 => absurd h0 (not_lt.mpr h)⟩,
      rfl⟩
  · rw [if_neg h, if_pos (by omega)]
    exact ⟨⟨fun _ => by omega, fun _ => rfl⟩, rfl⟩

/-- C9: the gather bookkeeping recomputed by the coordinator inside every
round (lines 124-137) is a pure function of `N` and `P` — identical on every
round — and coincides with the scatter-time partition arrays of lines 75-85;
consequently the refactored program that precomputes the arrays once
produces exactly the same solution vector, iteration count and final
error. -/
theorem c9_precompute_refinement (N P : ℕ) (A : ℕ → ℕ → ℚ) (b : ℕ → ℚ) :
    (∀ r, rcounts N P r = sendcounts_b N P r ∧ rdispls N P r = displsb N P r)
    ∧ (jacobiRunPre N P A b).x = (jacobiRun N P A b).x
    ∧ (jacobiRunPre N P A b).iterations = (jacobiRun N P A b).iterations
    ∧ (jacobiRunPre N P A b).global_error = (jacobiRun N P A b).global_error := by
  have h := jacobiRunPre_eq N P A b
  exact ⟨fun r => ⟨rfl, by rw [rdispls_eq_start, displsb_eq_start]⟩,
    by rw [h], by rw [h], by rw [h]⟩

/-- C10: the loop body runs before the condition is first evaluated
(do-while), so every run reports at least one iteration; with `b ≡ 0` the
all-zero initial guess is reproduced exactly and the first round's error is
0, so the solver reports exactly 1 iteration, never 0. -/
theorem c10_at_least_one_round (N P : ℕ) (A : ℕ → ℕ → ℚ) (b : ℕ → ℚ)
    (_hN : 0 < N) (_hP : 0 < P) :
    1 ≤ (jacobiRun N P A b).iterations
    ∧ (jacobiRun N P A (fun _ => 0)).iterations = 1 := by
  refine ⟨jacobiRun_iter_ge_one N P A b, ?_⟩
  have herr : (roundStep N P A (fun _ => 0) initState).global_error = 0 := by
    show global_error_val N P _ _ = 0
    unfold global_error_val
    apply Finset.sum_eq_zero
    intro r hr
    unfold local_error
    apply Finset.sum_eq_zero
    intro li hli
    rw [gatherv_at N P _ _ (Finset.mem_range.mp hr) (Finset.mem_range.mp hli)]
    simp [x_localF, A_local, b_local, initState]
  have hstop := runLoop_succ_stop N P A (fun _ => 0) 999 initState (by
    rw [not_and_or]
    left
    rw [herr]
    norm_num [TOLERANCE])
  show (runLoop N P A (fun _ => 0) MAX_ITER initState).iterations = 1
  rw [show MAX_ITER = 999 + 1 from rfl, hstop, roundStep_iterations]
  rfl

/-- C10 witness at `N = 1`, `P = 1`. -/
theorem c10_witness :
    0 < 1 ∧ (1 ≤ (jacobiRun 1 1 (fun _ _ => 1) (fun _ => 1)).iterations
      ∧ (jacobiRun 1 1 (fun _ _ => 1) (fun _ => 0)).iterations = 1) :=
  ⟨by decide,
    c10_at_least_one_round 1 1 (fun _ _ => 1) (fun _ => 1) (by decide) (by decide)⟩

end JacobiMPI
